import Mathlib

/-!
Verification model of the mean/variance reduction engine in
src/stats/meanvar.rs.

The floating-point scalar type is modelled as an idealized IEEE-like type:
exact rationals together with NaN and the two infinities.  Arithmetic on
finite values is exact (no rounding); the NaN/infinity propagation rules of
IEEE-754 are kept, since the properties under scrutiny are about NaN
filtering, validity counts and divisor selection, which are invariant under
rounding.  Where a claim is genuinely about rounding (the from_usize
exactness claim), dedicated models of the f32/f64 integer conversions with
round-to-nearest-even are given further down.

The SIMD kernels are embedded at the scalar backend (pulp::Scalar): one
element per SIMD register, empty head/tail segments, rotate amount 0, and
horizontal reduction being the identity.  This is the reference semantics of
the dispatched code; the per-element processing, the four-way unrolling, the
chunked counter flushing and the finalization are all kept exactly as in the
source.
-/

attribute [local semireducible] Rat.add Rat.mul Rat.sub Rat.inv Rat.ofScientific

/-- Idealized IEEE-like scalar: NaN, plus/minus infinity, or an exact
rational value.  An unsigned zero is used (the sign of zero plays no role in
any of the claims). -/
inductive Fp where
  | nan : Fp
  | inf : Fp
  | ninf : Fp
  | num : ℚ → Fp
deriving DecidableEq, Repr

/-- NaN test, as in Rust f32::is_nan / f64::is_nan. -/
def Fp.isNaN : Fp → Bool
  | Fp.nan => true
  | _ => false

/-- Self-comparison validity test: the kernels detect NaN through
val <= val (respectively val == val), which holds exactly for non-NaN
values, infinities included. -/
def Fp.isNotNaN (x : Fp) : Bool := !x.isNaN

/-- IEEE negation. -/
def Fp.neg : Fp → Fp
  | Fp.nan => Fp.nan
  | Fp.inf => Fp.ninf
  | Fp.ninf => Fp.inf
  | Fp.num q => Fp.num (-q)

/-- IEEE addition on the idealized type: NaN absorbs, opposite infinities
give NaN, finite arithmetic is exact. -/
def Fp.add : Fp → Fp → Fp
  | Fp.nan, _ => Fp.nan
  | _, Fp.nan => Fp.nan
  | Fp.inf, Fp.ninf => Fp.nan
  | Fp.ninf, Fp.inf => Fp.nan
  | Fp.inf, _ => Fp.inf
  | _, Fp.inf => Fp.inf
  | Fp.ninf, _ => Fp.ninf
  | _, Fp.ninf => Fp.ninf
  | Fp.num a, Fp.num b => Fp.num (a + b)

/-- IEEE subtraction. -/
def Fp.sub (x y : Fp) : Fp := x.add y.neg

/-- IEEE multiplication: NaN absorbs, zero times infinity is NaN, signs of
infinities follow the sign of the finite factor. -/
def Fp.mul : Fp → Fp → Fp
  | Fp.nan, _ => Fp.nan
  | _, Fp.nan => Fp.nan
  | Fp.inf, Fp.inf => Fp.inf
  | Fp.inf, Fp.ninf => Fp.ninf
  | Fp.ninf, Fp.inf => Fp.ninf
  | Fp.ninf, Fp.ninf => Fp.inf
  | Fp.inf, Fp.num q => if q = 0 then Fp.nan else if 0 < q then Fp.inf else Fp.ninf
  | Fp.num q, Fp.inf => if q = 0 then Fp.nan else if 0 < q then Fp.inf else Fp.ninf
  | Fp.ninf, Fp.num q => if q = 0 then Fp.nan else if 0 < q then Fp.ninf else Fp.inf
  | Fp.num q, Fp.ninf => if q = 0 then Fp.nan else if 0 < q then Fp.ninf else Fp.inf
  | Fp.num a, Fp.num b => Fp.num (a * b)

/-- IEEE reciprocal (faer_inv): the reciprocal of the (positive) zero is
plus infinity, the reciprocal of an infinity is zero. -/
def Fp.inv : Fp → Fp
  | Fp.nan => Fp.nan
  | Fp.inf => Fp.num 0
  | Fp.ninf => Fp.num 0
  | Fp.num q => if q = 0 then Fp.inf else Fp.num q⁻¹

/-- Complex scalar: a real and an imaginary component, as in
num_complex::Complex over the real type (also the payload of the packed c32
and c64 representations). -/
structure Cx where
  re : Fp
  im : Fp
deriving DecidableEq, Repr

/-- Complex NaN (faer_nan for complex types): both components NaN. -/
def cxNan : Cx := { re := Fp.nan, im := Fp.nan }

/-- Complex zero. -/
def cxZero : Cx := { re := Fp.num 0, im := Fp.num 0 }

/-- Componentwise complex addition. -/
def Cx.add (x y : Cx) : Cx := { re := x.re.add y.re, im := x.im.add y.im }

/-- Componentwise complex subtraction. -/
def Cx.sub (x y : Cx) : Cx := { re := x.re.sub y.re, im := x.im.sub y.im }

/-- faer_is_nan for complex elements: true when either component is NaN. -/
def Cx.isNaN (x : Cx) : Bool := x.re.isNaN || x.im.isNaN

/-- faer_abs2: squared magnitude re*re + im*im. -/
def Cx.abs2 (x : Cx) : Fp := (x.re.mul x.re).add (x.im.mul x.im)

/-- faer_scale_real: multiply both components by a real scalar. -/
def Cx.scaleReal (x : Cx) (s : Fp) : Cx := { re := x.re.mul s, im := x.im.mul s }

/-- Translation of from_usize (meanvar.rs lines 24-28): the low 32 bits and
the remaining high part are converted separately and added.  In the
idealized scalar model both conversions and the addition are exact. -/
def from_usize (n : ℕ) : Fp :=
  (Fp.num ((n % 2 ^ 32 : ℕ) : ℚ)).add (Fp.num ((n : ℚ) - ((n % 2 ^ 32 : ℕ) : ℚ)))

theorem Fp.add_num (a b : ℚ) : Fp.add (Fp.num a) (Fp.num b) = Fp.num (a + b) := rfl

theorem from_usize_eq_num (n : ℕ) : from_usize n = Fp.num n := by
  rw [from_usize, Fp.add_num]
  congr 1
  ring

/-- Number of binary digits of a natural number, computed with 64 halving
steps (enough for every usize value, which is all that from_usize can
receive). -/
def sigBitsAux : ℕ → ℕ → ℕ
  | 0, _ => 0
  | fuel + 1, n => if n = 0 then 0 else sigBitsAux fuel (n / 2) + 1

/-- Binary digit count, 64-step bounded. -/
def sigBits (n : ℕ) : ℕ := sigBitsAux 64 n

/-- Round-to-nearest-even of a natural number to a binary floating-point
significand of p bits (the integer part of the IEEE conversion semantics,
sufficient here because from_usize only ever converts natural numbers). -/
def rnd (p n : ℕ) : ℕ :=
  if sigBits n ≤ p then n
  else
    let s := sigBits n - p
    let q := n / 2 ^ s
    let r := n % 2 ^ s
    let half := 2 ^ (s - 1)
    if r < half then q * 2 ^ s
    else if half < r then (q + 1) * 2 ^ s
    else if q % 2 = 0 then q * 2 ^ s else (q + 1) * 2 ^ s

theorem sigBitsAux_le {fuel n p : ℕ} (h : n < 2 ^ p) (hf : p ≤ fuel) :
    sigBitsAux fuel n ≤ p := by
  induction fuel generalizing n p with
  | zero =>
    interval_cases p
    simp [sigBitsAux]
  | succ f ih =>
    by_cases h0 : n = 0
    · simp [sigBitsAux, h0]
    · have hp : 1 ≤ p := by
        by_contra hc
        push_neg at hc
        interval_cases p
        omega
      have hdiv : n / 2 < 2 ^ (p - 1) := by
        have : (2 : ℕ) ^ p = 2 * 2 ^ (p - 1) := by
          rw [← pow_succ']
          congr 1
          omega
        omega
      have := ih hdiv (by omega)
      simp only [sigBitsAux, h0, if_false]
      omega

theorem rnd_eq_of_lt {p n : ℕ} (h : n < 2 ^ p) (hp : p ≤ 64) : rnd p n = n := by
  unfold rnd
  simp [sigBitsAux_le h hp, sigBits]

/-- Model of from_usize instantiated at the f32 real type: the two halves
are converted to f32 (24-bit significand, round to nearest even) and added
with an f32 addition.  Since both addends are integers the f32 addition of
the two exact values is the rounding of their exact integer sum. -/
def fromUsizeF32 (n : ℕ) : Fp :=
  Fp.num ((rnd 24 (rnd 24 (n % 2 ^ 32) + rnd 24 (n - n % 2 ^ 32)) : ℕ) : ℚ)

/-- Model of from_usize instantiated at the f64 real type (53-bit
significand). -/
def fromUsizeF64 (n : ℕ) : Fp :=
  Fp.num ((rnd 53 (rnd 53 (n % 2 ^ 32) + rnd 53 (n - n % 2 ^ 32)) : ℕ) : ℚ)

/-!
Shared SIMD reduction skeleton (scalar backend semantics).

All six NaN-ignoring row kernels in meanvar.rs
(col_mean_row_major_ignore_nan_{real,cplx,c32,c64} and the two varm
variants) share the same traversal verbatim: an empty head read processed
with a NaN sentinel and flushed, the body split into groups of four with
four independent accumulator/counter pairs and a periodic counter flush
every chunk_size groups, the remainder and an empty tail read folded into
lane 0, a final counter flush, and the pairwise combination of the four
sums.  The skeleton below is that traversal, parameterized by the per-lane
processing step (the body of the per-kernel process function): the sum
update, the counter increment, the counter bit width, and the combining
addition used at the end.
-/

/-- Per-kernel parameters of the reduction skeleton.  bits is the bit width
of E::Index (the per-lane counter type); step and inc are the sum update
and counter increment of the process function, taking the read value
(none encodes an out-of-bounds head/tail read, which read_or replaces with
a NaN sentinel); comb is the vector addition used to combine the four
partial sums at the end. -/
structure Kern (ε α : Type) where
  bits : ℕ
  zero : α
  step : α → Option ε → α
  inc : Option ε → ℕ
  comb : α → α → α

/-- Translation of the chunk_size computation: 2 to the counter width when
the counter is narrower than the 64-bit usize, usize::MAX otherwise, then
divided by 4. -/
def chunkSize (bits : ℕ) : ℕ := (if bits < 64 then 2 ^ bits else 2 ^ 64 - 1) / 4

/-- State of one row reduction: four partial sums, four per-lane counters
(values of the wrapping E::Index type, kept below 2 to the bits), and the
running usize total. -/
structure St (α : Type) where
  s0 : α
  s1 : α
  s2 : α
  s3 : α
  c0 : ℕ
  c1 : ℕ
  c2 : ℕ
  c3 : ℕ
  total : ℕ
deriving Repr

/-- Initial state: zero sums and zero counters. -/
def Kern.init (K : Kern ε α) : St α :=
  { s0 := K.zero, s1 := K.zero, s2 := K.zero, s3 := K.zero
    c0 := 0, c1 := 0, c2 := 0, c3 := 0, total := 0 }

/-- One processing step on lane 0 (used for the head, the remainder loop
and the tail).  The counter update is the wrapping index_add of the
counter type. -/
def Kern.proc0 (K : Kern ε α) (p : St α) (v : Option ε) : St α :=
  { p with s0 := K.step p.s0 v, c0 := (p.c0 + K.inc v) % 2 ^ K.bits }

/-- Flush of lane-0 counter into the running total (the reduce calls after
the head and after the tail), followed by the reset to zero. -/
def Kern.flush0 (K : Kern ε α) (p : St α) : St α :=
  { p with total := p.total + p.c0, c0 := 0 }

/-- One group of four: each of the four values goes to its own
accumulator/counter pair, exactly as in the unrolled body loop. -/
def Kern.procG (K : Kern ε α) (p : St α) (g : ε × ε × ε × ε) : St α :=
  { p with
    s0 := K.step p.s0 (some g.1), c0 := (p.c0 + K.inc (some g.1)) % 2 ^ K.bits
    s1 := K.step p.s1 (some g.2.1), c1 := (p.c1 + K.inc (some g.2.1)) % 2 ^ K.bits
    s2 := K.step p.s2 (some g.2.2.1), c2 := (p.c2 + K.inc (some g.2.2.1)) % 2 ^ K.bits
    s3 := K.step p.s3 (some g.2.2.2), c3 := (p.c3 + K.inc (some g.2.2.2)) % 2 ^ K.bits }

/-- End-of-chunk counter flush: the four counters are combined pairwise
with the wrapping index_add, reduced into the usize total, and reset. -/
def Kern.flushAll (K : Kern ε α) (p : St α) : St α :=
  { p with
    total := p.total + ((p.c0 + p.c1) % 2 ^ K.bits + (p.c2 + p.c3) % 2 ^ K.bits) % 2 ^ K.bits
    c0 := 0, c1 := 0, c2 := 0, c3 := 0 }

/-- Split a row into the groups of four consumed by the unrolled body loop
and the remainder consumed one element at a time (body.as_arrays of 4). -/
def groups4 : List ε → List (ε × ε × ε × ε) × List ε
  | a :: b :: c :: d :: t =>
    let gr := groups4 t
    ((a, b, c, d) :: gr.1, gr.2)
  | t => ([], t)

/-- The chunked while loop over the groups of four: each iteration consumes
at most chunkSize groups and ends with a counter flush.  The fuel argument
is an upper bound on the number of iterations used only to convince the
termination checker; it is always instantiated with the group count, which
suffices since every iteration of the source loop consumes at least one
group. -/
def Kern.chunkLoop (K : Kern ε α) : ℕ → St α → List (ε × ε × ε × ε) → St α
  | _, p, [] => p
  | 0, p, _ => p
  | Nat.succ fuel, p, gs =>
    let len := min gs.length (chunkSize K.bits)
    K.chunkLoop fuel (K.flushAll ((gs.take len).foldl K.procG p)) (gs.drop len)

/-- The complete row traversal: head, chunked body of fours, remainder,
tail, final flush. -/
def Kern.runRow (K : Kern ε α) (row : List ε) : St α :=
  let gb := groups4 row
  let p := K.flush0 (K.proc0 K.init none)
  let p := K.chunkLoop gb.1.length p gb.1
  let p := gb.2.foldl (fun p x => K.proc0 p (some x)) p
  let p := K.proc0 p none
  K.flush0 p

/-- Pairwise combination of the four partial sums (sum0+sum1, sum2+sum3,
then the two halves); the rotate amount is 0 and the horizontal reduction
is the identity on the scalar backend. -/
def Kern.rowSum (K : Kern ε α) (p : St α) : α :=
  K.comb (K.comb p.s0 p.s1) (K.comb p.s2 p.s3)

/-!
Kernel instances.  Each instance transcribes the process function of one
row kernel of meanvar.rs at the scalar backend.  For the packed c32/c64
kernels this is the coe::is_same::(S, pulp::Scalar) branch of process.
-/

/-- process of col_mean_row_major_ignore_nan_real: a NaN-replaced read, the
self-comparison validity test, a masked add and a masked counter
increment.  E::Index is u32 for f32 and u64 for f64, hence the bits
parameter. -/
def kMeanIgnoreReal (bits : ℕ) : Kern Fp Fp :=
  { bits := bits
    zero := Fp.num 0
    step := fun acc v =>
      let val := v.getD Fp.nan
      if val.isNotNaN then acc.add val else acc
    inc := fun v =>
      let val := v.getD Fp.nan
      if val.isNotNaN then 1 else 0
    comb := Fp.add }

/-- process of col_varm_row_major_ignore_nan_real: subtract the
precomputed row mean, then a masked fused multiply-add of the squared
deviation. -/
def kVarmIgnoreReal (bits : ℕ) (mean : Fp) : Kern Fp Fp :=
  { bits := bits
    zero := Fp.num 0
    step := fun acc v =>
      let val := v.getD Fp.nan
      let diff := val.sub mean
      if val.isNotNaN then (diff.mul diff).add acc else acc
    inc := fun v =>
      let val := v.getD Fp.nan
      if val.isNotNaN then 1 else 0
    comb := Fp.add }

/-- process of col_mean_row_major_ignore_nan_cplx: componentwise
self-comparison, nested selects keyed on the imaginary then the real
validity (the element counts only when both components are non-NaN). -/
def kMeanIgnoreCplx (bits : ℕ) : Kern Cx Cx :=
  { bits := bits
    zero := cxZero
    step := fun acc v =>
      let val := v.getD cxNan
      if val.im.isNotNaN && val.re.isNotNaN then acc.add val else acc
    inc := fun v =>
      let val := v.getD cxNan
      if val.im.isNotNaN && val.re.isNotNaN then 1 else 0
    comb := Cx.add }

/-- process of col_varm_row_major_ignore_nan_cplx: complex deviation, then
the squared magnitude accumulated into a real sum when both components are
non-NaN.  The abs2_add_e primitive is the squared magnitude of the
deviation added to the accumulator; its internal association does not
matter for any claim since finite arithmetic is exact here. -/
def kVarmIgnoreCplx (bits : ℕ) (mean : Cx) : Kern Cx Fp :=
  { bits := bits
    zero := Fp.num 0
    step := fun acc v =>
      let val := v.getD cxNan
      let diff := val.sub mean
      if val.im.isNotNaN && val.re.isNotNaN then (diff.abs2).add acc else acc
    inc := fun v =>
      let val := v.getD cxNan
      if val.im.isNotNaN && val.re.isNotNaN then 1 else 0
    comb := Fp.add }

/-- process of col_mean_row_major_ignore_nan_c32, scalar branch: a NaN
entry is replaced by zero before the unconditional add, and the u32
counter is incremented by is_nan as u32 * 2 (by two when the entry IS NaN,
including the synthetic NaN head/tail reads). -/
def kMeanIgnoreC32 : Kern Cx Cx :=
  { bits := 32
    zero := cxZero
    step := fun acc v =>
      let val := v.getD cxNan
      let isNan := val.re.isNaN || val.im.isNaN
      let val2 := if isNan then cxZero else val
      acc.add val2
    inc := fun v =>
      let val := v.getD cxNan
      if val.re.isNaN || val.im.isNaN then 2 else 0
    comb := Cx.add }

/-- process of col_mean_row_major_ignore_nan_c64, scalar branch: identical
to the c32 one with u64 counters. -/
def kMeanIgnoreC64 : Kern Cx Cx :=
  { kMeanIgnoreC32 with bits := 64 }

/-- process of col_varm_row_major_ignore_nan_c32, scalar branch: a NaN
entry is replaced by the mean (so its deviation is zero), and the counter
is again incremented by is_nan as u32 * 2. -/
def kVarmIgnoreC32 (mean : Cx) : Kern Cx Fp :=
  { bits := 32
    zero := Fp.num 0
    step := fun acc v =>
      let val := v.getD cxNan
      let isNan := val.re.isNaN || val.im.isNaN
      let val2 := if isNan then mean else val
      let diff := val2.sub mean
      acc.add diff.abs2
    inc := fun v =>
      let val := v.getD cxNan
      if val.re.isNaN || val.im.isNaN then 2 else 0
    comb := Fp.add }

/-- process of col_varm_row_major_ignore_nan_c64, scalar branch. -/
def kVarmIgnoreC64 (mean : Cx) : Kern Cx Fp :=
  { kVarmIgnoreC32 mean with bits := 64 }

/-!
Row finalizers: the code after the traversal in each kernel.
-/

/-- Row mean, real ignore kernel: sum scaled by the reciprocal of the
converted count. -/
def meanIgnoreRealRow (bits : ℕ) (row : List Fp) : Fp :=
  let p := (kMeanIgnoreReal bits).runRow row
  ((kMeanIgnoreReal bits).rowSum p).mul (from_usize p.total).inv

/-- Row variance, real ignore kernel: NaN for count 0, exact 0 for count
1, otherwise sum over (count - 1). -/
def varmIgnoreRealRow (bits : ℕ) (mean : Fp) (row : List Fp) : Fp :=
  let p := (kVarmIgnoreReal bits mean).runRow row
  if p.total = 0 then Fp.nan
  else if p.total = 1 then Fp.num 0
  else ((kVarmIgnoreReal bits mean).rowSum p).mul (from_usize (p.total - 1)).inv

/-- Row mean, generic complex ignore kernel. -/
def meanIgnoreCplxRow (bits : ℕ) (row : List Cx) : Cx :=
  let p := (kMeanIgnoreCplx bits).runRow row
  ((kMeanIgnoreCplx bits).rowSum p).scaleReal (from_usize p.total).inv

/-- Row variance, generic complex ignore kernel. -/
def varmIgnoreCplxRow (bits : ℕ) (mean : Cx) (row : List Cx) : Fp :=
  let p := (kVarmIgnoreCplx bits mean).runRow row
  if p.total = 0 then Fp.nan
  else if p.total = 1 then Fp.num 0
  else ((kVarmIgnoreCplx bits mean).rowSum p).mul (from_usize (p.total - 1)).inv

/-- Row mean, packed c32 kernel: the counter tracks two sub-lane hits per
element, so the total is divided by 2 before the scaling. -/
def meanIgnoreC32Row (row : List Cx) : Cx :=
  let p := kMeanIgnoreC32.runRow row
  (kMeanIgnoreC32.rowSum p).scaleReal (from_usize (p.total / 2)).inv

/-- Row mean, packed c64 kernel. -/
def meanIgnoreC64Row (row : List Cx) : Cx :=
  let p := kMeanIgnoreC64.runRow row
  (kMeanIgnoreC64.rowSum p).scaleReal (from_usize (p.total / 2)).inv

/-- Row variance, packed c32 kernel: the halved total drives the
finalization cases. -/
def varmIgnoreC32Row (mean : Cx) (row : List Cx) : Fp :=
  let p := (kVarmIgnoreC32 mean).runRow row
  let t := p.total / 2
  if t = 0 then Fp.nan
  else if t = 1 then Fp.num 0
  else ((kVarmIgnoreC32 mean).rowSum p).mul (from_usize (t - 1)).inv

/-- Row variance, packed c64 kernel. -/
def varmIgnoreC64Row (mean : Cx) (row : List Cx) : Fp :=
  let p := (kVarmIgnoreC64 mean).runRow row
  let t := p.total / 2
  if t = 0 then Fp.nan
  else if t = 1 then Fp.num 0
  else ((kVarmIgnoreC64 mean).rowSum p).mul (from_usize (t - 1)).inv

/-!
Element operations for the code that is generic over ComplexField (the
Propagate kernels and the strided fallbacks), with the real and the
complex instantiations.
-/

/-- The ComplexField operations used by the generic code paths. -/
structure ElemOps (α : Type) where
  zeroE : α
  nanE : α
  addE : α → α → α
  subE : α → α → α
  abs2E : α → Fp
  scaleR : α → Fp → α
  isNanE : α → Bool

/-- Real instantiation: faer_abs2 of a real is its square, faer_scale_real
is multiplication. -/
def elemR : ElemOps Fp :=
  { zeroE := Fp.num 0, nanE := Fp.nan, addE := Fp.add, subE := Fp.sub
    abs2E := fun x => x.mul x, scaleR := Fp.mul, isNanE := Fp.isNaN }

/-- Complex instantiation (covers the generic Complex wrapper and the
packed c32/c64 element types, whose field operations coincide with it). -/
def elemC : ElemOps Cx :=
  { zeroE := cxZero, nanE := cxNan, addE := Cx.add, subE := Cx.sub
    abs2E := Cx.abs2, scaleR := Cx.scaleReal, isNanE := Cx.isNaN }

/-- Row sum of col_mean_propagate (row-major branch): sum0 is initialized
from the head read (zero on the scalar backend), the groups of four feed
the four accumulators, the remainder and the tail fold into sum0, and the
four sums are combined pairwise. -/
def sumPropRow (E : ElemOps α) (row : List α) : α :=
  let gb := groups4 row
  let s := gb.1.foldl
    (fun (s : α × α × α × α) g =>
      (E.addE s.1 g.1, E.addE s.2.1 g.2.1, E.addE s.2.2.1 g.2.2.1, E.addE s.2.2.2 g.2.2.2))
    (E.zeroE, E.zeroE, E.zeroE, E.zeroE)
  let t0 := gb.2.foldl E.addE s.1
  let t0 := E.addE t0 E.zeroE
  E.addE (E.addE t0 s.2.1) (E.addE s.2.2.1 s.2.2.2)

/-- Row sum of squared deviations of col_varm_propagate (row-major
branch).  Out-of-bounds reads are replaced by the mean, giving a zero
deviation; the process step is mul_add(diff, diff, acc), that is the
squared deviation magnitude added to the accumulator. -/
def varmPropRowSum (E : ElemOps α) (mean : α) (row : List α) : Fp :=
  let vstep := fun (s : Fp) (v : Option α) => (E.abs2E (E.subE (v.getD mean) mean)).add s
  let gb := groups4 row
  let h0 := vstep (Fp.num 0) none
  let s := gb.1.foldl
    (fun (s : Fp × Fp × Fp × Fp) g =>
      (vstep s.1 (some g.1), vstep s.2.1 (some g.2.1),
        vstep s.2.2.1 (some g.2.2.1), vstep s.2.2.2 (some g.2.2.2)))
    (h0, Fp.num 0, Fp.num 0, Fp.num 0)
  let t0 := gb.2.foldl (fun s x => vstep s (some x)) s.1
  let t0 := vstep t0 none
  (t0.add s.2.1).add (s.2.2.1.add s.2.2.2)

/-!
Matrix views and the layout adapter.
-/

/-- Immutable matrix view: dimensions, an entry function, and the two
strides.  Only the sign of the column stride and whether it equals 1 are
observable in this code (the layout adapter of meanvar.rs); the row stride
participates through transposition.  Output column/row vectors are
returned as lists, since every call writes every output position. -/
structure MatView (α : Type) where
  nrows : ℕ
  ncols : ℕ
  entry : ℕ → ℕ → α
  rowStride : Int
  colStride : Int

/-- Zero-copy transposition: swap dimensions, entry indices and strides. -/
def MatView.transposeM (M : MatView α) : MatView α :=
  { nrows := M.ncols, ncols := M.nrows, entry := fun i j => M.entry j i
    rowStride := M.colStride, colStride := M.rowStride }

/-- reverse_cols: reverse column iteration order and negate the column
stride. -/
def MatView.revCols (M : MatView α) : MatView α :=
  { M with entry := fun i j => M.entry i (M.ncols - 1 - j), colStride := -M.colStride }

/-- The orientation normalization at the top of every column operation:
keep the matrix if the column stride is non-negative, reverse the columns
otherwise. -/
def normCols (M : MatView α) : MatView α :=
  if 0 ≤ M.colStride then M else M.revCols

/-- Row i of the view as a list (the contiguous slice fed to the row-major
kernels). -/
def rowList (M : MatView α) (i : ℕ) : List α :=
  (List.range M.ncols).map (M.entry i)

/-!
Column-level operations: the layout dispatch, the edge-case fills and the
strided fallbacks, each transcribed from its function in meanvar.rs.
-/

/-- Strided fallback of col_mean_ignore: per row, accumulate the non-NaN
entries and their count, then scale by the reciprocal of the count. -/
def stridedMeanIgnore (E : ElemOps α) (M : MatView α) : List α :=
  (List.range M.nrows).map fun i =>
    let p := (List.range M.ncols).foldl
      (fun (p : α × ℕ) j =>
        let elem := M.entry i j
        let isNan := E.isNanE elem
        ((if isNan then p.1 else E.addE p.1 elem), p.2 + (if isNan then 0 else 1)))
      (E.zeroE, 0)
    E.scaleR p.1 (from_usize p.2).inv

/-- Strided fallback of col_varm_ignore with its finalization cases. -/
def stridedVarmIgnore (E : ElemOps α) (M : MatView α) (mean : ℕ → α) : List Fp :=
  (List.range M.nrows).map fun i =>
    let p := (List.range M.ncols).foldl
      (fun (p : Fp × ℕ) j =>
        let elem := M.entry i j
        let diff := E.subE elem (mean i)
        let isNan := E.isNanE elem
        ((if isNan then p.1 else p.1.add (E.abs2E diff)), p.2 + (if isNan then 0 else 1)))
      (Fp.num 0, 0)
    if p.2 = 0 then Fp.nan
    else if p.2 = 1 then Fp.num 0
    else p.1.mul (from_usize (p.2 - 1)).inv

/-- col_mean_propagate: NaN fill for zero columns, orientation
normalization, then the row-major kernel or the column-accumulating
strided fallback, both scaled by the reciprocal of the column count. -/
def colMeanPropagate (E : ElemOps α) (M : MatView α) : List α :=
  if M.ncols = 0 then List.replicate M.nrows E.nanE
  else
    let N := normCols M
    if N.colStride = 1 then
      (List.range N.nrows).map fun i =>
        E.scaleR (sumPropRow E (rowList N i)) (from_usize N.ncols).inv
    else
      (List.range N.nrows).map fun i =>
        E.scaleR ((List.range N.ncols).foldl (fun a j => E.addE a (N.entry i j)) E.zeroE)
          (from_usize N.ncols).inv

/-- col_varm_propagate: NaN fill for zero columns, exact-zero fill for one
column, then either path divides the squared-deviation sum by the
reciprocal of (column count - 1). -/
def colVarmPropagate (E : ElemOps α) (M : MatView α) (mean : ℕ → α) : List Fp :=
  if M.ncols = 0 then List.replicate M.nrows Fp.nan
  else if M.ncols = 1 then List.replicate M.nrows (Fp.num 0)
  else
    let N := normCols M
    if N.colStride = 1 then
      (List.range N.nrows).map fun i =>
        (varmPropRowSum E (mean i) (rowList N i)).mul (from_usize (N.ncols - 1)).inv
    else
      (List.range N.nrows).map fun i =>
        ((List.range N.ncols).foldl
            (fun a j => a.add (E.abs2E (E.subE (N.entry i j) (mean i)))) (Fp.num 0)).mul
          (from_usize (N.ncols - 1)).inv

/-- The per-row squared-deviation sum computed by col_varm_propagate on
the path the layout adapter selects (used to state the finalization
claim). -/
def propVarSum (E : ElemOps α) (M : MatView α) (mean : ℕ → α) (i : ℕ) : Fp :=
  let N := normCols M
  if N.colStride = 1 then varmPropRowSum E (mean i) (rowList N i)
  else
    (List.range N.ncols).foldl
      (fun a j => a.add (E.abs2E (E.subE (N.entry i j) (mean i)))) (Fp.num 0)

/-- col_mean_ignore at a real element type: NaN fill for zero columns,
then the real row-major kernel on the contiguous path or the generic
strided fallback. -/
def colMeanIgnoreReal (bits : ℕ) (M : MatView Fp) : List Fp :=
  if M.ncols = 0 then List.replicate M.nrows Fp.nan
  else
    let N := normCols M
    if N.colStride = 1 then
      (List.range N.nrows).map fun i => meanIgnoreRealRow bits (rowList N i)
    else stridedMeanIgnore elemR N

/-- col_mean_ignore at the generic complex element type. -/
def colMeanIgnoreCplx (bits : ℕ) (M : MatView Cx) : List Cx :=
  if M.ncols = 0 then List.replicate M.nrows cxNan
  else
    let N := normCols M
    if N.colStride = 1 then
      (List.range N.nrows).map fun i => meanIgnoreCplxRow bits (rowList N i)
    else stridedMeanIgnore elemC N

/-- col_mean_ignore at the packed c32 element type. -/
def colMeanIgnoreC32 (M : MatView Cx) : List Cx :=
  if M.ncols = 0 then List.replicate M.nrows cxNan
  else
    let N := normCols M
    if N.colStride = 1 then
      (List.range N.nrows).map fun i => meanIgnoreC32Row (rowList N i)
    else stridedMeanIgnore elemC N

/-- col_mean_ignore at the packed c64 element type. -/
def colMeanIgnoreC64 (M : MatView Cx) : List Cx :=
  if M.ncols = 0 then List.replicate M.nrows cxNan
  else
    let N := normCols M
    if N.colStride = 1 then
      (List.range N.nrows).map fun i => meanIgnoreC64Row (rowList N i)
    else stridedMeanIgnore elemC N

/-- col_varm_ignore at a real element type. -/
def colVarmIgnoreReal (bits : ℕ) (M : MatView Fp) (mean : ℕ → Fp) : List Fp :=
  if M.ncols = 0 then List.replicate M.nrows Fp.nan
  else
    let N := normCols M
    if N.colStride = 1 then
      (List.range N.nrows).map fun i => varmIgnoreRealRow bits (mean i) (rowList N i)
    else stridedVarmIgnore elemR N mean

/-- col_varm_ignore at the generic complex element type. -/
def colVarmIgnoreCplx (bits : ℕ) (M : MatView Cx) (mean : ℕ → Cx) : List Fp :=
  if M.ncols = 0 then List.replicate M.nrows Fp.nan
  else
    let N := normCols M
    if N.colStride = 1 then
      (List.range N.nrows).map fun i => varmIgnoreCplxRow bits (mean i) (rowList N i)
    else stridedVarmIgnore elemC N mean

/-- col_varm_ignore at the packed c32 element type. -/
def colVarmIgnoreC32 (M : MatView Cx) (mean : ℕ → Cx) : List Fp :=
  if M.ncols = 0 then List.replicate M.nrows Fp.nan
  else
    let N := normCols M
    if N.colStride = 1 then
      (List.range N.nrows).map fun i => varmIgnoreC32Row (mean i) (rowList N i)
    else stridedVarmIgnore elemC N mean

/-- col_varm_ignore at the packed c64 element type. -/
def colVarmIgnoreC64 (M : MatView Cx) (mean : ℕ → Cx) : List Fp :=
  if M.ncols = 0 then List.replicate M.nrows Fp.nan
  else
    let N := normCols M
    if N.colStride = 1 then
      (List.range N.nrows).map fun i => varmIgnoreC64Row (mean i) (rowList N i)
    else stridedVarmIgnore elemC N mean

/-!
Public API surface: the NanHandling policy enum and the four entry points,
one family per concrete element type (the type-equality dispatch of
col_mean_ignore / col_varm_ignore resolved per type).  The row variants
are, as in the source, the column variants applied to the transposed view.
-/

/-- NanHandling: how missing values are treated. -/
inductive NanHandling where
  | Propagate : NanHandling
  | Ignore : NanHandling
deriving DecidableEq, Repr

/-- col_mean at a real element type (bits is the width of the real type
index, u32 for f32, u64 for f64). -/
def colMeanF (bits : ℕ) (M : MatView Fp) : NanHandling → List Fp
  | NanHandling.Propagate => colMeanPropagate elemR M
  | NanHandling.Ignore => colMeanIgnoreReal bits M

/-- row_mean at a real element type: col_mean on the transposed view. -/
def rowMeanF (bits : ℕ) (M : MatView Fp) : NanHandling → List Fp
  | NanHandling.Propagate => colMeanPropagate elemR M.transposeM
  | NanHandling.Ignore => colMeanIgnoreReal bits M.transposeM

/-- col_varm at a real element type. -/
def colVarmF (bits : ℕ) (M : MatView Fp) (mean : ℕ → Fp) : NanHandling → List Fp
  | NanHandling.Propagate => colVarmPropagate elemR M mean
  | NanHandling.Ignore => colVarmIgnoreReal bits M mean

/-- row_varm at a real element type. -/
def rowVarmF (bits : ℕ) (M : MatView Fp) (mean : ℕ → Fp) : NanHandling → List Fp
  | NanHandling.Propagate => colVarmPropagate elemR M.transposeM mean
  | NanHandling.Ignore => colVarmIgnoreReal bits M.transposeM mean

/-- col_mean at the generic Complex element type. -/
def colMeanCg (bits : ℕ) (M : MatView Cx) : NanHandling → List Cx
  | NanHandling.Propagate => colMeanPropagate elemC M
  | NanHandling.Ignore => colMeanIgnoreCplx bits M

/-- row_mean at the generic Complex element type. -/
def rowMeanCg (bits : ℕ) (M : MatView Cx) : NanHandling → List Cx
  | NanHandling.Propagate => colMeanPropagate elemC M.transposeM
  | NanHandling.Ignore => colMeanIgnoreCplx bits M.transposeM

/-- col_varm at the generic Complex element type. -/
def colVarmCg (bits : ℕ) (M : MatView Cx) (mean : ℕ → Cx) : NanHandling → List Fp
  | NanHandling.Propagate => colVarmPropagate elemC M mean
  | NanHandling.Ignore => colVarmIgnoreCplx bits M mean

/-- row_varm at the generic Complex element type. -/
def rowVarmCg (bits : ℕ) (M : MatView Cx) (mean : ℕ → Cx) : NanHandling → List Fp
  | NanHandling.Propagate => colVarmPropagate elemC M.transposeM mean
  | NanHandling.Ignore => colVarmIgnoreCplx bits M.transposeM mean

/-- col_mean at the packed c32 element type. -/
def colMeanC32 (M : MatView Cx) : NanHandling → List Cx
  | NanHandling.Propagate => colMeanPropagate elemC M
  | NanHandling.Ignore => colMeanIgnoreC32 M

/-- row_mean at the packed c32 element type. -/
def rowMeanC32 (M : MatView Cx) : NanHandling → List Cx
  | NanHandling.Propagate => colMeanPropagate elemC M.transposeM
  | NanHandling.Ignore => colMeanIgnoreC32 M.transposeM

/-- col_varm at the packed c32 element type. -/
def colVarmC32 (M : MatView Cx) (mean : ℕ → Cx) : NanHandling → List Fp
  | NanHandling.Propagate => colVarmPropagate elemC M mean
  | NanHandling.Ignore => colVarmIgnoreC32 M mean

/-- row_varm at the packed c32 element type. -/
def rowVarmC32 (M : MatView Cx) (mean : ℕ → Cx) : NanHandling → List Fp
  | NanHandling.Propagate => colVarmPropagate elemC M.transposeM mean
  | NanHandling.Ignore => colVarmIgnoreC32 M.transposeM mean

/-- col_mean at the packed c64 element type. -/
def colMeanC64 (M : MatView Cx) : NanHandling → List Cx
  | NanHandling.Propagate => colMeanPropagate elemC M
  | NanHandling.Ignore => colMeanIgnoreC64 M

/-- row_mean at the packed c64 element type. -/
def rowMeanC64 (M : MatView Cx) : NanHandling → List Cx
  | NanHandling.Propagate => colMeanPropagate elemC M.transposeM
  | NanHandling.Ignore => colMeanIgnoreC64 M.transposeM

/-- col_varm at the packed c64 element type. -/
def colVarmC64 (M : MatView Cx) (mean : ℕ → Cx) : NanHandling → List Fp
  | NanHandling.Propagate => colVarmPropagate elemC M mean
  | NanHandling.Ignore => colVarmIgnoreC64 M mean

/-- row_varm at the packed c64 element type. -/
def rowVarmC64 (M : MatView Cx) (mean : ℕ → Cx) : NanHandling → List Fp
  | NanHandling.Propagate => colVarmPropagate elemC M.transposeM mean
  | NanHandling.Ignore => colVarmIgnoreC64 M.transposeM mean

/-!
Helper lemmas about the scalar model and the reduction skeleton.
-/

theorem Fp.add_nan_right (x : Fp) : x.add Fp.nan = Fp.nan := by cases x <;> rfl

theorem Fp.nan_add_left (x : Fp) : Fp.nan.add x = Fp.nan := by cases x <;> rfl

theorem Fp.isNaN_iff (x : Fp) : x.isNaN = true ↔ x = Fp.nan := by
  cases x <;> simp [Fp.isNaN]

theorem normCols_nrows (M : MatView α) : (normCols M).nrows = M.nrows := by
  unfold normCols MatView.revCols
  split <;> rfl

theorem normCols_ncols (M : MatView α) : (normCols M).ncols = M.ncols := by
  unfold normCols MatView.revCols
  split <;> rfl

theorem normCols_eq_self (M : MatView α) (h : 0 ≤ M.colStride) : normCols M = M := by
  unfold normCols
  simp [h]

/-- Flattening of the groups-of-four decomposition. -/
def flat4 : List (ε × ε × ε × ε) → List ε
  | [] => []
  | g :: t => g.1 :: g.2.1 :: g.2.2.1 :: g.2.2.2 :: flat4 t

theorem groups4_flat (l : List ε) : flat4 (groups4 l).1 ++ (groups4 l).2 = l := by
  induction l using groups4.induct with
  | case1 a b c d t ih => simp [groups4, flat4, ih]
  | case2 t h => simp [groups4, flat4]

theorem flat4_length (gs : List (ε × ε × ε × ε)) : (flat4 gs).length = 4 * gs.length := by
  induction gs with
  | nil => rfl
  | cons g t ih => simp [flat4, ih]; omega

theorem groups4_length (l : List ε) :
    4 * (groups4 l).1.length + (groups4 l).2.length = l.length := by
  have h := congrArg List.length (groups4_flat l)
  simpa [flat4_length] using h

theorem groups4_snd_le (l : List ε) : (groups4 l).2.length ≤ 3 := by
  induction l using groups4.induct with
  | case1 a b c d t ih => simpa [groups4] using ih
  | case2 t h =>
    match t, h with
    | [], _ => simp [groups4]
    | [a], _ => simp [groups4]
    | [a, b], _ => simp [groups4]
    | [a, b, c], _ => simp [groups4]
    | a :: b :: c :: d :: t4, h => exact absurd rfl (h a b c d t4)

theorem sum_map_le_length (f : ε → ℕ) (l : List ε) (h : ∀ x ∈ l, f x ≤ 1) :
    (l.map f).sum ≤ l.length := by
  induction l with
  | nil => simp
  | cons a t ih =>
    have ha := h a (List.mem_cons_self a t)
    have ht := ih fun x hx => h x (List.mem_cons_of_mem a hx)
    simp only [List.map_cons, List.sum_cons, List.length_cons]
    omega

theorem sum_map_ite_filter (p : ε → Bool) (l : List ε) :
    (l.map (fun x => if p x then 1 else 0)).sum = (l.filter p).length := by
  induction l with
  | nil => rfl
  | cons a t ih =>
    by_cases hp : p a <;> simp [List.filter_cons, hp, ih] <;> omega

theorem chunkLoop_nil (K : Kern ε α) (fuel : ℕ) (p : St α) :
    K.chunkLoop fuel p [] = p := by
  cases fuel <;> rfl

theorem chunkLoop_single (K : Kern ε α) (gs : List (ε × ε × ε × ε)) (p : St α)
    (h : gs.length ≤ chunkSize K.bits) (hne : gs ≠ []) :
    K.chunkLoop gs.length p gs = K.flushAll (gs.foldl K.procG p) := by
  cases gs with
  | nil => exact absurd rfl hne
  | cons g t =>
    have hmin : min (g :: t).length (chunkSize K.bits) = (g :: t).length :=
      Nat.min_eq_left h
    have e : K.chunkLoop (g :: t).length p (g :: t)
        = K.chunkLoop t.length
            (K.flushAll (((g :: t).take
              (min (g :: t).length (chunkSize K.bits))).foldl K.procG p))
            ((g :: t).drop (min (g :: t).length (chunkSize K.bits))) := rfl
    rw [e, hmin, List.take_length, List.drop_length, chunkLoop_nil]

theorem foldl_procG_counts (K : Kern ε α) (hB : ∀ v, K.inc v ≤ 1)
    (gs : List (ε × ε × ε × ε)) (p : St α)
    (h0 : p.c0 + gs.length < 2 ^ K.bits) (h1 : p.c1 + gs.length < 2 ^ K.bits)
    (h2 : p.c2 + gs.length < 2 ^ K.bits) (h3 : p.c3 + gs.length < 2 ^ K.bits) :
    (gs.foldl K.procG p).c0 = p.c0 + (gs.map (fun g => K.inc (some g.1))).sum
    ∧ (gs.foldl K.procG p).c1 = p.c1 + (gs.map (fun g => K.inc (some g.2.1))).sum
    ∧ (gs.foldl K.procG p).c2 = p.c2 + (gs.map (fun g => K.inc (some g.2.2.1))).sum
    ∧ (gs.foldl K.procG p).c3 = p.c3 + (gs.map (fun g => K.inc (some g.2.2.2))).sum
    ∧ (gs.foldl K.procG p).total = p.total := by
  induction gs generalizing p with
  | nil => simp
  | cons g t ih =>
    simp only [List.length_cons] at h0 h1 h2 h3
    have hb0 := hB (some g.1)
    have hb1 := hB (some g.2.1)
    have hb2 := hB (some g.2.2.1)
    have hb3 := hB (some g.2.2.2)
    have l0 : (K.procG p g).c0 = p.c0 + K.inc (some g.1) := by
      simp only [Kern.procG]
      exact Nat.mod_eq_of_lt (by omega)
    have l1 : (K.procG p g).c1 = p.c1 + K.inc (some g.2.1) := by
      simp only [Kern.procG]
      exact Nat.mod_eq_of_lt (by omega)
    have l2 : (K.procG p g).c2 = p.c2 + K.inc (some g.2.2.1) := by
      simp only [Kern.procG]
      exact Nat.mod_eq_of_lt (by omega)
    have l3 : (K.procG p g).c3 = p.c3 + K.inc (some g.2.2.2) := by
      simp only [Kern.procG]
      exact Nat.mod_eq_of_lt (by omega)
    have lt : (K.procG p g).total = p.total := rfl
    obtain ⟨i0, i1, i2, i3, it⟩ :=
      ih (K.procG p g) (by omega) (by omega) (by omega) (by omega)
    refine ⟨?_, ?_, ?_, ?_, ?_⟩ <;>
      simp only [List.foldl_cons, List.map_cons, List.sum_cons, i0, i1, i2, i3, it,
        l0, l1, l2, l3, lt] <;> omega

theorem foldl_proc0_counts (K : Kern ε α) (hB : ∀ v, K.inc v ≤ 1)
    (l : List ε) (p : St α) (h0 : p.c0 + l.length < 2 ^ K.bits) :
    (l.foldl (fun p x => K.proc0 p (some x)) p).c0
        = p.c0 + (l.map (fun x => K.inc (some x))).sum
    ∧ (l.foldl (fun p x => K.proc0 p (some x)) p).c1 = p.c1
    ∧ (l.foldl (fun p x => K.proc0 p (some x)) p).c2 = p.c2
    ∧ (l.foldl (fun p x => K.proc0 p (some x)) p).c3 = p.c3
    ∧ (l.foldl (fun p x => K.proc0 p (some x)) p).total = p.total := by
  induction l generalizing p with
  | nil => simp
  | cons x t ih =>
    simp only [List.length_cons] at h0
    have hb := hB (some x)
    have l0 : (K.proc0 p (some x)).c0 = p.c0 + K.inc (some x) := by
      simp only [Kern.proc0]
      exact Nat.mod_eq_of_lt (by omega)
    have m1 : (K.proc0 p (some x)).c1 = p.c1 := rfl
    have m2 : (K.proc0 p (some x)).c2 = p.c2 := rfl
    have m3 : (K.proc0 p (some x)).c3 = p.c3 := rfl
    have mt : (K.proc0 p (some x)).total = p.total := rfl
    obtain ⟨i0, i1, i2, i3, it⟩ := ih (K.proc0 p (some x)) (by omega)
    refine ⟨?_, ?_, ?_, ?_, ?_⟩ <;>
      simp only [List.foldl_cons, List.map_cons, List.sum_cons, i0, i1, i2, i3, it, l0,
        m1, m2, m3, mt] <;> omega

theorem mass_groups4 (f : ε → ℕ) (row : List ε) :
    ((groups4 row).1.map (fun g => f g.1)).sum
    + ((groups4 row).1.map (fun g => f g.2.1)).sum
    + ((groups4 row).1.map (fun g => f g.2.2.1)).sum
    + ((groups4 row).1.map (fun g => f g.2.2.2)).sum
    + ((groups4 row).2.map f).sum = (row.map f).sum := by
  induction row using groups4.induct with
  | case1 a b c d t ih =>
    simp only [groups4, List.map_cons, List.sum_cons]
    omega
  | case2 t h => simp [groups4]

theorem chunkSize_ge (bits : ℕ) (h : 32 ≤ bits) : 2 ^ 30 ≤ chunkSize bits := by
  unfold chunkSize
  by_cases h64 : bits < 64
  · have hp : (2 : ℕ) ^ 32 ≤ 2 ^ bits := Nat.pow_le_pow_right (by norm_num) h
    have : (2 : ℕ) ^ 32 / 4 ≤ 2 ^ bits / 4 := Nat.div_le_div_right hp
    simp only [h64, if_true]
    omega
  · simp only [h64, if_false]
    decide

/-- Exactness of the flushed counter total: for any kernel whose per-lane
increment is at most 1 (all the real and generic-complex kernels), a row of
fewer than 2 to the 32 elements yields a final usize total equal to the sum
of the per-element increments plus the two sentinel (head and tail read)
increments; no per-lane counter, pairwise counter sum or combined counter
sum ever wraps in that regime. -/
theorem flush_sum_eq (M a b c d : ℕ) (h : a + b + c + d < M) :
    ((a + b) % M + (c + d) % M) % M = a + b + (c + d) := by
  rw [Nat.mod_eq_of_lt (show a + b < M by omega),
    Nat.mod_eq_of_lt (show c + d < M by omega)]
  exact Nat.mod_eq_of_lt (by omega)

theorem runRow_total (K : Kern ε α) (hB : ∀ v, K.inc v ≤ 1) (hbits : 32 ≤ K.bits)
    (row : List ε) (hrow : row.length < 2 ^ 32) :
    (K.runRow row).total
      = (row.map (fun x => K.inc (some x))).sum + 2 * K.inc none := by
  have hM : (2 : ℕ) ^ 32 ≤ 2 ^ K.bits := Nat.pow_le_pow_right (by norm_num) hbits
  have hlen := groups4_length row
  have hrest3 := groups4_snd_le row
  have hmass := mass_groups4 (fun x => K.inc (some x)) row
  have hchunk : (groups4 row).1.length ≤ chunkSize K.bits := by
    have h30 := chunkSize_ge K.bits hbits
    omega
  have hincn := hB none
  have hrw : K.runRow row
      = K.flush0 (K.proc0 ((groups4 row).2.foldl (fun p x => K.proc0 p (some x))
          (K.chunkLoop (groups4 row).1.length (K.flush0 (K.proc0 K.init none))
            (groups4 row).1)) none) := rfl
  rw [hrw]
  set p1 := K.flush0 (K.proc0 K.init none) with hp1def
  have hp1c0 : p1.c0 = 0 := rfl
  have hp1c1 : p1.c1 = 0 := rfl
  have hp1c2 : p1.c2 = 0 := rfl
  have hp1c3 : p1.c3 = 0 := rfl
  have hp1t : p1.total = K.inc none := by
    show 0 + (0 + K.inc none) % 2 ^ K.bits = K.inc none
    rw [Nat.zero_add, Nat.zero_add]
    exact Nat.mod_eq_of_lt (by omega)
  have hq : ∃ q : St α,
      K.chunkLoop (groups4 row).1.length p1 (groups4 row).1 = q
      ∧ q.c0 = 0 ∧ q.c1 = 0 ∧ q.c2 = 0 ∧ q.c3 = 0
      ∧ q.total = K.inc none
          + (((groups4 row).1.map (fun g => K.inc (some g.1))).sum
            + ((groups4 row).1.map (fun g => K.inc (some g.2.1))).sum
            + ((groups4 row).1.map (fun g => K.inc (some g.2.2.1))).sum
            + ((groups4 row).1.map (fun g => K.inc (some g.2.2.2))).sum) := by
    by_cases hgs : (groups4 row).1 = []
    · refine ⟨p1, ?_, hp1c0, hp1c1, hp1c2, hp1c3, ?_⟩
      · rw [hgs]; exact chunkLoop_nil K _ p1
      · rw [hgs]; simpa using hp1t
    · have hrun := chunkLoop_single K (groups4 row).1 p1 hchunk hgs
      have hb0 : p1.c0 + (groups4 row).1.length < 2 ^ K.bits := by
        rw [hp1c0]; omega
      have hb1 : p1.c1 + (groups4 row).1.length < 2 ^ K.bits := by
        rw [hp1c1]; omega
      have hb2 : p1.c2 + (groups4 row).1.length < 2 ^ K.bits := by
        rw [hp1c2]; omega
      have hb3 : p1.c3 + (groups4 row).1.length < 2 ^ K.bits := by
        rw [hp1c3]; omega
      obtain ⟨f0, f1, f2, f3, ft⟩ :=
        foldl_procG_counts K hB (groups4 row).1 p1 hb0 hb1 hb2 hb3
      have hm0 : ((groups4 row).1.map (fun g => K.inc (some g.1))).sum
          ≤ (groups4 row).1.length :=
        sum_map_le_length _ _ (fun g _ => hB _)
      have hm1 : ((groups4 row).1.map (fun g => K.inc (some g.2.1))).sum
          ≤ (groups4 row).1.length :=
        sum_map_le_length _ _ (fun g _ => hB _)
      have hm2 : ((groups4 row).1.map (fun g => K.inc (some g.2.2.1))).sum
          ≤ (groups4 row).1.length :=
        sum_map_le_length _ _ (fun g _ => hB _)
      have hm3 : ((groups4 row).1.map (fun g => K.inc (some g.2.2.2))).sum
          ≤ (groups4 row).1.length :=
        sum_map_le_length _ _ (fun g _ => hB _)
      set f := (groups4 row).1.foldl K.procG p1 with hfdef
      refine ⟨K.flushAll f, hrun, rfl, rfl, rfl, rfl, ?_⟩
      show f.total + ((f.c0 + f.c1) % 2 ^ K.bits + (f.c2 + f.c3) % 2 ^ K.bits) % 2 ^ K.bits = _
      rw [f0, f1, f2, f3, ft, hp1c0, hp1c1, hp1c2, hp1c3, hp1t]
      rw [flush_sum_eq (2 ^ K.bits) _ _ _ _ (by omega)]
      omega
  obtain ⟨q, hqrun, hq0, hq1, hq2, hq3, hqt⟩ := hq
  rw [hqrun]
  have hr0 : q.c0 + (groups4 row).2.length < 2 ^ K.bits := by rw [hq0]; omega
  obtain ⟨r0, r1, r2, r3, rt⟩ := foldl_proc0_counts K hB (groups4 row).2 q hr0
  set r := (groups4 row).2.foldl (fun p x => K.proc0 p (some x)) q with hrdef
  have hrestm : ((groups4 row).2.map (fun x => K.inc (some x))).sum
      ≤ (groups4 row).2.length :=
    sum_map_le_length _ _ (fun x _ => hB _)
  have hfin : (K.flush0 (K.proc0 r none)).total
      = r.total + (r.c0 + K.inc none) % 2 ^ K.bits := rfl
  rw [hfin, rt, hqt, r0, hq0]
  rw [Nat.mod_eq_of_lt (by omega)]
  omega

theorem groups4_mem_comp (row : List ε) (g : ε × ε × ε × ε)
    (hg : g ∈ (groups4 row).1) :
    g.1 ∈ row ∧ g.2.1 ∈ row ∧ g.2.2.1 ∈ row ∧ g.2.2.2 ∈ row := by
  induction row using groups4.induct with
  | case1 a b c d t ih =>
    simp only [groups4, List.mem_cons] at hg
    rcases hg with hg | hg
    · subst hg
      refine ⟨?_, ?_, ?_, ?_⟩ <;> simp
    · obtain ⟨m1, m2, m3, m4⟩ := ih hg
      refine ⟨?_, ?_, ?_, ?_⟩ <;> simp [m1, m2, m3, m4]
  | case2 t h =>
    simp [groups4] at hg

theorem groups4_rest_mem (row : List ε) (x : ε) (hx : x ∈ (groups4 row).2) :
    x ∈ row := by
  induction row using groups4.induct with
  | case1 a b c d t ih =>
    simp only [groups4] at hx
    simp [ih hx]
  | case2 t h =>
    simpa [groups4] using hx

theorem foldl_procG_init_inert (K : Kern ε α) (gs : List (ε × ε × ε × ε))
    (h : ∀ g ∈ gs, (∀ a, K.step a (some g.1) = a) ∧ K.inc (some g.1) = 0
      ∧ (∀ a, K.step a (some g.2.1) = a) ∧ K.inc (some g.2.1) = 0
      ∧ (∀ a, K.step a (some g.2.2.1) = a) ∧ K.inc (some g.2.2.1) = 0
      ∧ (∀ a, K.step a (some g.2.2.2) = a) ∧ K.inc (some g.2.2.2) = 0) :
    gs.foldl K.procG K.init = K.init := by
  induction gs with
  | nil => rfl
  | cons g t ih =>
    obtain ⟨s1, n1, s2, n2, s3, n3, s4, n4⟩ := h g (List.mem_cons_self g t)
    have hg : K.procG K.init g = K.init := by
      simp [Kern.procG, Kern.init, s1, n1, s2, n2, s3, n3, s4, n4]
    rw [List.foldl_cons, hg]
    exact ih fun g hg => h g (List.mem_cons_of_mem _ hg)

theorem flushAll_init (K : Kern ε α) : K.flushAll K.init = K.init := by
  simp [Kern.flushAll, Kern.init]

theorem chunkLoop_init_inert (K : Kern ε α) (fuel : ℕ) (gs : List (ε × ε × ε × ε))
    (h : ∀ g ∈ gs, (∀ a, K.step a (some g.1) = a) ∧ K.inc (some g.1) = 0
      ∧ (∀ a, K.step a (some g.2.1) = a) ∧ K.inc (some g.2.1) = 0
      ∧ (∀ a, K.step a (some g.2.2.1) = a) ∧ K.inc (some g.2.2.1) = 0
      ∧ (∀ a, K.step a (some g.2.2.2) = a) ∧ K.inc (some g.2.2.2) = 0) :
    K.chunkLoop fuel K.init gs = K.init := by
  induction fuel generalizing gs with
  | zero => cases gs <;> rfl
  | succ n ih =>
    cases gs with
    | nil => rfl
    | cons g t =>
      have e : K.chunkLoop (n + 1) K.init (g :: t)
          = K.chunkLoop n
              (K.flushAll (((g :: t).take
                (min (g :: t).length (chunkSize K.bits))).foldl K.procG K.init))
              ((g :: t).drop (min (g :: t).length (chunkSize K.bits))) := rfl
      rw [e, foldl_procG_init_inert K _
          (fun x hx => h x (List.take_subset _ _ hx)),
        flushAll_init]
      exact ih _ fun x hx => h x (List.drop_subset _ _ hx)

theorem foldl_proc0_init_inert (K : Kern ε α) (l : List ε)
    (h : ∀ x ∈ l, (∀ a, K.step a (some x) = a) ∧ K.inc (some x) = 0) :
    l.foldl (fun p x => K.proc0 p (some x)) K.init = K.init := by
  induction l with
  | nil => rfl
  | cons x t ih =>
    obtain ⟨hs, hn⟩ := h x (List.mem_cons_self x t)
    have hx : K.proc0 K.init (some x) = K.init := by
      simp [Kern.proc0, Kern.init, hs, hn]
    rw [List.foldl_cons, hx]
    exact ih fun y hy => h y (List.mem_cons_of_mem _ hy)

/-- If the process step is inert on every element of the row and on the
NaN sentinel (which is the case on an all-NaN row for the masked ignore
kernels), the whole traversal returns the initial state: zero sums and a
zero count total. -/
theorem runRow_init_inert (K : Kern ε α) (row : List ε)
    (hn : (∀ a, K.step a none = a) ∧ K.inc none = 0)
    (h : ∀ x ∈ row, (∀ a, K.step a (some x) = a) ∧ K.inc (some x) = 0) :
    K.runRow row = K.init := by
  have h1 : K.proc0 K.init none = K.init := by
    simp [Kern.proc0, Kern.init, hn.1, hn.2]
  have h2 : K.flush0 K.init = K.init := by
    simp [Kern.flush0, Kern.init]
  have hrw : K.runRow row
      = K.flush0 (K.proc0 ((groups4 row).2.foldl (fun p x => K.proc0 p (some x))
          (K.chunkLoop (groups4 row).1.length (K.flush0 (K.proc0 K.init none))
            (groups4 row).1)) none) := rfl
  rw [hrw, h1, h2]
  rw [chunkLoop_init_inert K _ _ (fun g hg => by
    obtain ⟨m1, m2, m3, m4⟩ := groups4_mem_comp row g hg
    exact ⟨(h _ m1).1, (h _ m1).2, (h _ m2).1, (h _ m2).2,
      (h _ m3).1, (h _ m3).2, (h _ m4).1, (h _ m4).2⟩)]
  rw [foldl_proc0_init_inert K _ (fun x hx => h x (groups4_rest_mem row x hx))]
  rw [h1, h2]

theorem Fp.nan_mul_left (x : Fp) : Fp.nan.mul x = Fp.nan := by cases x <;> rfl

theorem Fp.nan_sub_left (x : Fp) : Fp.nan.sub x = Fp.nan := by
  unfold Fp.sub
  exact Fp.nan_add_left _

theorem foldl_fadd_from_nan (l : List Fp) : l.foldl Fp.add Fp.nan = Fp.nan := by
  induction l with
  | nil => rfl
  | cons x t ih =>
    rw [List.foldl_cons, Fp.nan_add_left]
    exact ih

theorem foldl_fadd_allnan (l : List Fp) (a : Fp) (hne : l ≠ [])
    (h : ∀ x ∈ l, x = Fp.nan) : l.foldl Fp.add a = Fp.nan := by
  cases l with
  | nil => exact absurd rfl hne
  | cons x t =>
    rw [List.foldl_cons, h x (List.mem_cons_self x t), Fp.add_nan_right]
    exact foldl_fadd_from_nan t

theorem foldl_add4_from_nan (gs : List (Fp × Fp × Fp × Fp)) :
    gs.foldl (fun (s : Fp × Fp × Fp × Fp) g =>
        (Fp.add s.1 g.1, Fp.add s.2.1 g.2.1, Fp.add s.2.2.1 g.2.2.1,
          Fp.add s.2.2.2 g.2.2.2))
      (Fp.nan, Fp.nan, Fp.nan, Fp.nan) = (Fp.nan, Fp.nan, Fp.nan, Fp.nan) := by
  induction gs with
  | nil => rfl
  | cons g t ih =>
    rw [List.foldl_cons]
    simpa [Fp.nan_add_left] using ih

theorem foldl_add4_allnan (gs : List (Fp × Fp × Fp × Fp)) (s : Fp × Fp × Fp × Fp)
    (hne : gs ≠ [])
    (h : ∀ g ∈ gs, g.1 = Fp.nan ∧ g.2.1 = Fp.nan ∧ g.2.2.1 = Fp.nan
      ∧ g.2.2.2 = Fp.nan) :
    gs.foldl (fun (s : Fp × Fp × Fp × Fp) g =>
        (Fp.add s.1 g.1, Fp.add s.2.1 g.2.1, Fp.add s.2.2.1 g.2.2.1,
          Fp.add s.2.2.2 g.2.2.2)) s = (Fp.nan, Fp.nan, Fp.nan, Fp.nan) := by
  cases gs with
  | nil => exact absurd rfl hne
  | cons g t =>
    obtain ⟨e1, e2, e3, e4⟩ := h g (List.mem_cons_self g t)
    rw [List.foldl_cons, e1, e2, e3, e4]
    simpa [Fp.add_nan_right] using foldl_add4_from_nan t

/-- On an all-NaN nonempty row, the Propagate mean row sum is NaN: the
unconditional accumulation pushes the NaN through every lane it touches
and the final pairwise combination absorbs it. -/
theorem sumPropRow_allnan (row : List Fp) (hne : row ≠ [])
    (h : ∀ x ∈ row, x = Fp.nan) : sumPropRow elemR row = Fp.nan := by
  have hcomp : ∀ g ∈ (groups4 row).1, g.1 = Fp.nan ∧ g.2.1 = Fp.nan
      ∧ g.2.2.1 = Fp.nan ∧ g.2.2.2 = Fp.nan := by
    intro g hg
    obtain ⟨m1, m2, m3, m4⟩ := groups4_mem_comp row g hg
    exact ⟨h _ m1, h _ m2, h _ m3, h _ m4⟩
  have hrest : ∀ x ∈ (groups4 row).2, x = Fp.nan :=
    fun x hx => h x (groups4_rest_mem row x hx)
  by_cases hgs : (groups4 row).1 = []
  · have hrow : (groups4 row).2 = row := by
      have hfl := groups4_flat row
      rw [hgs] at hfl
      simpa [flat4] using hfl
    simp only [sumPropRow, elemR, hgs, List.foldl_nil, hrow]
    rw [foldl_fadd_allnan row _ hne h]
    simp [Fp.nan_add_left]
  · simp only [sumPropRow, elemR]
    rw [foldl_add4_allnan _ _ hgs hcomp]
    rw [foldl_fadd_from_nan]
    simp [Fp.nan_add_left]

theorem foldl_sqdev_from_nan (m : Fp) (l : List Fp) :
    l.foldl (fun s x => ((x.sub m).mul (x.sub m)).add s) Fp.nan = Fp.nan := by
  induction l with
  | nil => rfl
  | cons x t ih =>
    rw [List.foldl_cons, Fp.add_nan_right]
    exact ih

theorem foldl_sqdev_allnan (m : Fp) (l : List Fp) (a : Fp) (hne : l ≠ [])
    (h : ∀ x ∈ l, x = Fp.nan) :
    l.foldl (fun s x => ((x.sub m).mul (x.sub m)).add s) a = Fp.nan := by
  cases l with
  | nil => exact absurd rfl hne
  | cons x t =>
    rw [List.foldl_cons, h x (List.mem_cons_self x t), Fp.nan_sub_left,
      Fp.nan_mul_left, Fp.nan_add_left]
    exact foldl_sqdev_from_nan m t

theorem foldl_sqdev4_from_nan (m : Fp) (gs : List (Fp × Fp × Fp × Fp)) :
    gs.foldl (fun (s : Fp × Fp × Fp × Fp) g =>
        (((g.1.sub m).mul (g.1.sub m)).add s.1,
          ((g.2.1.sub m).mul (g.2.1.sub m)).add s.2.1,
          ((g.2.2.1.sub m).mul (g.2.2.1.sub m)).add s.2.2.1,
          ((g.2.2.2.sub m).mul (g.2.2.2.sub m)).add s.2.2.2))
      (Fp.nan, Fp.nan, Fp.nan, Fp.nan) = (Fp.nan, Fp.nan, Fp.nan, Fp.nan) := by
  induction gs with
  | nil => rfl
  | cons g t ih =>
    rw [List.foldl_cons]
    simpa [Fp.add_nan_right] using ih

theorem foldl_sqdev4_allnan (m : Fp) (gs : List (Fp × Fp × Fp × Fp))
    (s : Fp × Fp × Fp × Fp) (hne : gs ≠ [])
    (h : ∀ g ∈ gs, g.1 = Fp.nan ∧ g.2.1 = Fp.nan ∧ g.2.2.1 = Fp.nan
      ∧ g.2.2.2 = Fp.nan) :
    gs.foldl (fun (s : Fp × Fp × Fp × Fp) g =>
        (((g.1.sub m).mul (g.1.sub m)).add s.1,
          ((g.2.1.sub m).mul (g.2.1.sub m)).add s.2.1,
          ((g.2.2.1.sub m).mul (g.2.2.1.sub m)).add s.2.2.1,
          ((g.2.2.2.sub m).mul (g.2.2.2.sub m)).add s.2.2.2)) s
      = (Fp.nan, Fp.nan, Fp.nan, Fp.nan) := by
  cases gs with
  | nil => exact absurd rfl hne
  | cons g t =>
    obtain ⟨e1, e2, e3, e4⟩ := h g (List.mem_cons_self g t)
    rw [List.foldl_cons, e1, e2, e3, e4]
    simp only [Fp.nan_sub_left, Fp.nan_mul_left, Fp.nan_add_left]
    exact foldl_sqdev4_from_nan m t

/-- On an all-NaN nonempty row, the Propagate variance row sum is NaN. -/
theorem varmPropRowSum_allnan (m : Fp) (row : List Fp) (hne : row ≠ [])
    (h : ∀ x ∈ row, x = Fp.nan) : varmPropRowSum elemR m row = Fp.nan := by
  have hcomp : ∀ g ∈ (groups4 row).1, g.1 = Fp.nan ∧ g.2.1 = Fp.nan
      ∧ g.2.2.1 = Fp.nan ∧ g.2.2.2 = Fp.nan := by
    intro g hg
    obtain ⟨m1, m2, m3, m4⟩ := groups4_mem_comp row g hg
    exact ⟨h _ m1, h _ m2, h _ m3, h _ m4⟩
  by_cases hgs : (groups4 row).1 = []
  · have hrow : (groups4 row).2 = row := by
      have hfl := groups4_flat row
      rw [hgs] at hfl
      simpa [flat4] using hfl
    simp only [varmPropRowSum, elemR, hgs, List.foldl_nil, hrow, Option.getD_some,
      Option.getD_none]
    rw [foldl_sqdev_allnan m row _ hne h]
    simp [Fp.nan_add_left, Fp.add_nan_right]
  · simp only [varmPropRowSum, elemR, Option.getD_some, Option.getD_none]
    rw [foldl_sqdev4_allnan m _ _ hgs hcomp]
    rw [foldl_sqdev_from_nan]
    simp [Fp.nan_add_left, Fp.add_nan_right]

/-!
Claim theorems.
-/

/-- 1 by 1 packed c32 matrix holding the entry 1 + 2i, row-major and
contiguous. -/
def mC1 : MatView Cx :=
  { nrows := 1, ncols := 1, entry := fun _ _ => { re := Fp.num 1, im := Fp.num 2 },
    rowStride := 1, colStride := 1 }

/-- C1: the claim states that under Ignore the divisor of a c32 or c64 row
mean is the number of entries with both components non-NaN.  The code
refutes it: on the scalar fallback branch the counter is incremented by 2
when the entry IS NaN (and for the synthetic NaN head and tail reads), so
on a 1 by 1 matrix holding 1 + 2i, with one valid entry, the divisor is
2 and the computed mean is (0.5, 1.0) instead of (1.0, 2.0). -/
theorem c1_c32_mean_divisor_bug :
    colMeanIgnoreC32 mC1 = [{ re := Fp.num (1 / 2), im := Fp.num 1 }]
    ∧ colMeanIgnoreC32 mC1 ≠ [{ re := Fp.num 1, im := Fp.num 2 }] := by
  constructor
  · decide
  · decide

/-- 1 by 1 complex matrix holding 1 + 1i. -/
def mC3 : MatView Cx :=
  { nrows := 1, ncols := 1, entry := fun _ _ => { re := Fp.num 1, im := Fp.num 1 },
    rowStride := 1, colStride := 1 }

/-- C3: the claim states that the packed 32-bit and 64-bit complex kernels
agree with the generic complex kernel on identical data up to
floating-point tolerance.  Refuted: on the same 1 by 1 matrix holding
1 + 1i, the generic complex kernel computes the mean 1 + 1i while the
packed c32 kernel computes (1 + 1i)/2 (its scalar-branch counter counts
NaN entries instead of valid ones), a factor-2 discrepancy far beyond any
rounding tolerance.  The c64 kernel has the identical scalar branch. -/
theorem c3_packed_vs_generic_divergence :
    colMeanIgnoreCplx 32 mC3 = [{ re := Fp.num 1, im := Fp.num 1 }]
    ∧ colMeanIgnoreC32 mC3 = [{ re := Fp.num (1 / 2), im := Fp.num (1 / 2) }]
    ∧ colMeanIgnoreC64 mC3 = [{ re := Fp.num (1 / 2), im := Fp.num (1 / 2) }]
    ∧ colMeanIgnoreC32 mC3 ≠ colMeanIgnoreCplx 32 mC3 := by
  refine ⟨by decide, by decide, by decide, by decide⟩

/-- 1 by 1 packed c32 matrix whose single entry is NaN + NaN i. -/
def mC4 : MatView Cx :=
  { nrows := 1, ncols := 1, entry := fun _ _ => cxNan,
    rowStride := 1, colStride := 1 }

/-- C4: the claim states that the Ignore variance is NaN when the row has
zero valid entries.  Refuted for the packed c32 kernel: on a 1 by 1
all-NaN matrix (valid count 0) the scalar-branch counter reaches 6 (2 per
NaN read, sentinels included), the halved total is 3, and the kernel
divides the zero deviation sum by 2, writing exactly 0 where the claim
requires NaN.  The real and generic complex kernels, the strided fallback
and the crate tests all implement the claimed finalization. -/
theorem c4_c32_varm_zero_count_divergence :
    colVarmIgnoreC32 mC4 (fun _ => cxZero) = [Fp.num 0]
    ∧ Fp.num 0 ≠ Fp.nan := by
  constructor
  · decide
  · decide

/-- 1 by 1 packed c32 matrix holding 3 + 4i (no NaN anywhere). -/
def mC6 : MatView Cx :=
  { nrows := 1, ncols := 1, entry := fun _ _ => { re := Fp.num 3, im := Fp.num 4 },
    rowStride := 1, colStride := 1 }

/-- C6: the claim states that on NaN-free matrices Propagate and Ignore
produce identical outputs for all four public operations.  Refuted at
element type c32: on the NaN-free 1 by 1 matrix holding 3 + 4i, col_mean
under Propagate gives 3 + 4i but under Ignore gives (1.5, 2), because the
packed kernel scalar branch derives the divisor 2 from the two synthetic
NaN sentinel reads instead of the valid count 1. -/
theorem c6_policy_divergence_c32 :
    colMeanC32 mC6 NanHandling.Propagate = [{ re := Fp.num 3, im := Fp.num 4 }]
    ∧ colMeanC32 mC6 NanHandling.Ignore = [{ re := Fp.num (3 / 2), im := Fp.num 2 }]
    ∧ colMeanC32 mC6 NanHandling.Propagate ≠ colMeanC32 mC6 NanHandling.Ignore := by
  refine ⟨by decide, by decide, by decide⟩

/-- Entries of the 2 by 2 real test matrix [[1.2, 3.4], [1.7, -3.8]]
(exact rationals). -/
def eC2 (i j : ℕ) : Fp :=
  if i = 0 then
    (if j = 0 then Fp.num (6 / 5) else Fp.num (17 / 5))
  else
    (if j = 0 then Fp.num (17 / 10) else Fp.num (-(19 / 5)))

/-- The 2 by 2 real test matrix, row-major and contiguous. -/
def mC2 : MatView Fp :=
  { nrows := 2, ncols := 2, entry := eC2, rowStride := 2, colStride := 1 }

/-- The per-column means [1.45, -0.2] of the test matrix. -/
def muC2 (i : ℕ) : Fp :=
  if i = 0 then Fp.num (29 / 20) else Fp.num (-(1 / 5))

/-- C2 counterexample: the claim states that col_mean writes the
per-column means [1.45, -0.2] on [[1.2, 3.4], [1.7, -3.8]].  Refuted:
col_mean reduces along each row (its output has one entry per matrix row),
so it writes the per-row means [2.3, -1.05]; the vector [1.45, -0.2] is
what row_mean writes. -/
theorem c2_colmean_counterexample :
    colMeanF 64 mC2 NanHandling.Propagate
      = [Fp.num (23 / 10), Fp.num (-(21 / 20))]
    ∧ colMeanF 64 mC2 NanHandling.Propagate
      ≠ [Fp.num (29 / 20), Fp.num (-(1 / 5))] := by
  constructor
  · decide
  · decide

/-- C2 amended: on [[1.2, 3.4], [1.7, -3.8]] it is row_mean that writes
the per-column means [1.45, -0.2], and row_varm given those means writes
[(1.2-1.45)^2 + (1.7-1.45)^2, (3.4+0.2)^2 + (-3.8+0.2)^2]
= [0.125, 25.92] (the divide-by-(n-1)=1 case); col_mean itself writes the
per-row means [2.3, -1.05]. -/
theorem c2_rowmean_rowvarm_values :
    rowMeanF 64 mC2 NanHandling.Propagate
      = [Fp.num (29 / 20), Fp.num (-(1 / 5))]
    ∧ rowVarmF 64 mC2 muC2 NanHandling.Propagate
      = [Fp.num (1 / 8), Fp.num (648 / 25)] := by
  constructor
  · decide
  · decide

/-- 1 by 1 real matrix whose single entry is NaN. -/
def mC8 : MatView Fp :=
  { nrows := 1, ncols := 1, entry := fun _ _ => Fp.nan,
    rowStride := 1, colStride := 1 }

/-- C8 counterexample: the claim states that a fully-NaN row also has NaN
mean and NaN variance under Propagate.  Refuted for the variance of a
single-entry row: col_varm_propagate fills the output with exact zeros
whenever the column count is 1, before looking at any data, so the 1 by 1
all-NaN matrix gets variance 0, not NaN. -/
theorem c8_propagate_len1_counterexample :
    colVarmF 64 mC8 (fun _ => Fp.nan) NanHandling.Propagate = [Fp.num 0]
    ∧ Fp.num 0 ≠ Fp.nan := by
  constructor
  · decide
  · decide

/-- C9 counterexample: the claim states that counters are flushed every
floor(2^b/4) groups for a counter width of b bits.  Refuted at b = 64:
there the code computes usize::MAX / 4 = (2^64 - 1)/4 = 2^62 - 1, one
less than floor(2^64/4) = 2^62. -/
theorem c9_chunk_cadence_counterexample :
    chunkSize 64 ≠ 2 ^ 64 / 4 ∧ chunkSize 64 = 2 ^ 62 - 1 := by
  constructor
  · decide
  · decide

/-- C10 counterexample: the claim states that from_usize represents every
n below 2^32 exactly in the real type.  Refuted when the real type is
f32: its 24-bit significand rounds 2^24 + 1 = 16777217 to 16777216. -/
theorem c10_f32_inexact_counterexample :
    fromUsizeF32 16777217 = Fp.num 16777216
    ∧ Fp.num (16777216 : ℚ) ≠ Fp.num (16777217 : ℚ) := by
  constructor
  · decide
  · decide

/-- C7: for every matrix, mean vector and NaN policy, each row operation
equals the corresponding column operation applied to the transposed view
(and the unchanged mean function, transposition of a vector view being the
identity on its entries), for all four element types. -/
theorem c7_row_ops_transpose (bits : ℕ) (MF : MatView Fp) (MC M32 M64 : MatView Cx)
    (mF : ℕ → Fp) (mC m32 m64 : ℕ → Cx) (p : NanHandling) :
    rowMeanF bits MF p = colMeanF bits MF.transposeM p
    ∧ rowVarmF bits MF mF p = colVarmF bits MF.transposeM mF p
    ∧ rowMeanCg bits MC p = colMeanCg bits MC.transposeM p
    ∧ rowVarmCg bits MC mC p = colVarmCg bits MC.transposeM mC p
    ∧ rowMeanC32 M32 p = colMeanC32 M32.transposeM p
    ∧ rowVarmC32 M32 m32 p = colVarmC32 M32.transposeM m32 p
    ∧ rowMeanC64 M64 p = colMeanC64 M64.transposeM p
    ∧ rowVarmC64 M64 m64 p = colVarmC64 M64.transposeM m64 p := by
  cases p <;> exact ⟨rfl, rfl, rfl, rfl, rfl, rfl, rfl, rfl⟩

/-- C5: under Propagate, col_varm writes NaN to every output position when
the column count is 0 and exactly 0 when it is 1, both independently of
the matrix content; otherwise every output entry is the squared-deviation
row sum multiplied by the reciprocal of (column count - 1), never divided
by the column count itself. -/
theorem c5_varm_propagate_finalization {α : Type} (E : ElemOps α) (M : MatView α)
    (mean : ℕ → α) :
    (M.ncols = 0 → colVarmPropagate E M mean = List.replicate M.nrows Fp.nan)
    ∧ (M.ncols = 1 → colVarmPropagate E M mean = List.replicate M.nrows (Fp.num 0))
    ∧ (2 ≤ M.ncols → ∀ i, i < M.nrows →
        (colVarmPropagate E M mean).get? i
          = some ((propVarSum E M mean i).mul (from_usize (M.ncols - 1)).inv)) := by
  refine ⟨?_, ?_, ?_⟩
  · intro h
    simp [colVarmPropagate, h]
  · intro h
    simp [colVarmPropagate, h]
  · intro h i hi
    have h0 : ¬ M.ncols = 0 := by omega
    have h1 : ¬ M.ncols = 1 := by omega
    unfold colVarmPropagate propVarSum
    simp only [h0, h1, if_false]
    by_cases hs : (normCols M).colStride = 1
    · simp only [hs, if_true]
      rw [List.get?_map, List.get?_range (by rw [normCols_nrows]; exact hi)]
      simp [normCols_ncols]
    · simp only [hs, if_false]
      rw [List.get?_map, List.get?_range (by rw [normCols_nrows]; exact hi)]
      simp [normCols_ncols]

/-- A 1 by 2 real matrix [[1, 3]], row-major and contiguous. -/
def mC5w : MatView Fp :=
  { nrows := 1, ncols := 2, entry := fun _ j => if j = 0 then Fp.num 1 else Fp.num 3,
    rowStride := 2, colStride := 1 }

/-- Constant mean vector 2 for the C5 witness. -/
def muC5w (_ : ℕ) : Fp := Fp.num 2

/-- Witness for C5 at a concrete 1 by 2 matrix with mean 2: the divisor
case 2 <= ncols applies, and the squared-deviation row sum evaluates to
(1-2)^2 + (3-2)^2 = 2. -/
theorem c5_varm_propagate_finalization_witness :
    2 ≤ mC5w.ncols
    ∧ (colVarmPropagate elemR mC5w muC5w).get? 0
        = some ((propVarSum elemR mC5w muC5w 0).mul (from_usize (mC5w.ncols - 1)).inv)
    ∧ propVarSum elemR mC5w muC5w 0 = Fp.num 2 :=
  ⟨by decide,
    (c5_varm_propagate_finalization elemR mC5w muC5w).2.2 (by decide) 0 (by decide),
    by decide⟩

theorem get?_replicate_of_lt (a : α) {n i : ℕ} (h : i < n) :
    (List.replicate n a).get? i = some a := by
  rw [List.get?_eq_getElem?]
  simp [List.getElem?_replicate, h]

theorem rowList_allnan (M : MatView Fp) (i : ℕ)
    (hnan : ∀ j, j < M.ncols → (M.entry i j).isNaN) :
    ∀ x ∈ rowList M i, x = Fp.nan := by
  intro x hx
  simp only [rowList, List.mem_map, List.mem_range] at hx
  obtain ⟨j, hj, hxe⟩ := hx
  rw [← hxe]
  exact (Fp.isNaN_iff _).mp (hnan j hj)

theorem rowList_length (M : MatView Fp) (i : ℕ) : (rowList M i).length = M.ncols := by
  simp [rowList]

/-- On an all-NaN row, the real ignore-NaN mean kernel leaves the initial
state untouched and finalizes 0 times the reciprocal of 0, which is NaN. -/
theorem meanIgnoreRealRow_allnan (bits : ℕ) (row : List Fp)
    (h : ∀ x ∈ row, x = Fp.nan) : meanIgnoreRealRow bits row = Fp.nan := by
  have hrun := runRow_init_inert (kMeanIgnoreReal bits) row ⟨fun a => rfl, rfl⟩
    (fun x hx => by rw [h x hx]; exact ⟨fun a => rfl, rfl⟩)
  unfold meanIgnoreRealRow
  rw [hrun]
  simp only [kMeanIgnoreReal, Kern.rowSum, Kern.init]
  decide

/-- On an all-NaN row, the real ignore-NaN variance kernel sees a zero
valid count and finalizes to NaN. -/
theorem varmIgnoreRealRow_allnan (bits : ℕ) (m : Fp) (row : List Fp)
    (h : ∀ x ∈ row, x = Fp.nan) : varmIgnoreRealRow bits m row = Fp.nan := by
  have hrun := runRow_init_inert (kVarmIgnoreReal bits m) row ⟨fun a => rfl, rfl⟩
    (fun x hx => by rw [h x hx]; exact ⟨fun a => rfl, rfl⟩)
  unfold varmIgnoreRealRow
  rw [hrun]
  rfl

/-- C8 amended: for a contiguous real matrix row that is entirely NaN,
mean and variance are NaN under Ignore; under Propagate the mean is NaN
and the variance is NaN except when the column count is exactly 1, in
which case the unconditional length-1 convention writes exactly 0.  (The
packed c32/c64 kernels deviate from even the Ignore part through the
inverted scalar-branch counter recorded under C1.) -/
theorem c8_allnan_row (bits : ℕ) (M : MatView Fp) (mean : ℕ → Fp) (i : ℕ)
    (hi : i < M.nrows) (hs : M.colStride = 1)
    (hnan : ∀ j, j < M.ncols → (M.entry i j).isNaN) :
    (colMeanF bits M NanHandling.Ignore).get? i = some Fp.nan
    ∧ (colVarmF bits M mean NanHandling.Ignore).get? i = some Fp.nan
    ∧ (colMeanF bits M NanHandling.Propagate).get? i = some Fp.nan
    ∧ (M.ncols ≠ 1 →
        (colVarmF bits M mean NanHandling.Propagate).get? i = some Fp.nan)
    ∧ (M.ncols = 1 →
        (colVarmF bits M mean NanHandling.Propagate).get? i = some (Fp.num 0)) := by
  have hnneg : (0 : Int) ≤ M.colStride := by rw [hs]; norm_num
  have hnorm : normCols M = M := normCols_eq_self M hnneg
  have hrownan := rowList_allnan M i hnan
  refine ⟨?_, ?_, ?_, ?_, ?_⟩
  · show (colMeanIgnoreReal bits M).get? i = some Fp.nan
    by_cases hn0 : M.ncols = 0
    · simp only [colMeanIgnoreReal, hn0, if_true]
      exact get?_replicate_of_lt _ hi
    · simp only [colMeanIgnoreReal, hn0, if_false, hnorm, hs, if_true]
      rw [List.get?_map, List.get?_range hi]
      simp only [Option.map_some']
      rw [meanIgnoreRealRow_allnan bits _ hrownan]
  · show (colVarmIgnoreReal bits M mean).get? i = some Fp.nan
    by_cases hn0 : M.ncols = 0
    · simp only [colVarmIgnoreReal, hn0, if_true]
      exact get?_replicate_of_lt _ hi
    · simp only [colVarmIgnoreReal, hn0, if_false, hnorm, hs, if_true]
      rw [List.get?_map, List.get?_range hi]
      simp only [Option.map_some']
      rw [varmIgnoreRealRow_allnan bits _ _ hrownan]
  · show (colMeanPropagate elemR M).get? i = some Fp.nan
    by_cases hn0 : M.ncols = 0
    · simp only [colMeanPropagate, hn0, if_true]
      exact get?_replicate_of_lt _ hi
    · simp only [colMeanPropagate, hn0, if_false, hnorm, hs, if_true]
      rw [List.get?_map, List.get?_range hi]
      simp only [Option.map_some']
      have hne : rowList M i ≠ [] := by
        intro hcon
        have := congrArg List.length hcon
        rw [rowList_length] at this
        simp at this
        exact hn0 this
      rw [show elemR.scaleR = Fp.mul from rfl,
        sumPropRow_allnan _ hne hrownan, Fp.nan_mul_left]
  · intro hn1
    show (colVarmPropagate elemR M mean).get? i = some Fp.nan
    by_cases hn0 : M.ncols = 0
    · simp only [colVarmPropagate, hn0, if_true]
      exact get?_replicate_of_lt _ hi
    · simp only [colVarmPropagate, hn0, hn1, if_false, hnorm, hs, if_true]
      rw [List.get?_map, List.get?_range hi]
      simp only [Option.map_some']
      have hne : rowList M i ≠ [] := by
        intro hcon
        have := congrArg List.length hcon
        rw [rowList_length] at this
        simp at this
        exact hn0 this
      rw [varmPropRowSum_allnan _ _ hne hrownan, Fp.nan_mul_left]
  · intro hn1
    show (colVarmPropagate elemR M mean).get? i = some (Fp.num 0)
    simp only [colVarmPropagate, hn1, if_false, if_true]
    exact get?_replicate_of_lt _ hi

/-- A 1 by 2 real matrix with both entries NaN, row-major and contiguous. -/
def mC8w : MatView Fp :=
  { nrows := 1, ncols := 2, entry := fun _ _ => Fp.nan,
    rowStride := 2, colStride := 1 }

/-- Witness for C8 at a concrete 1 by 2 all-NaN matrix. -/
theorem c8_allnan_row_witness :
    (colMeanF 64 mC8w NanHandling.Ignore).get? 0 = some Fp.nan
    ∧ (colVarmF 64 mC8w (fun _ => Fp.num 0) NanHandling.Ignore).get? 0 = some Fp.nan
    ∧ (colMeanF 64 mC8w NanHandling.Propagate).get? 0 = some Fp.nan
    ∧ (mC8w.ncols ≠ 1 →
        (colVarmF 64 mC8w (fun _ => Fp.num 0) NanHandling.Propagate).get? 0
          = some Fp.nan)
    ∧ (mC8w.ncols = 1 →
        (colVarmF 64 mC8w (fun _ => Fp.num 0) NanHandling.Propagate).get? 0
          = some (Fp.num 0)) :=
  c8_allnan_row 64 mC8w (fun _ => Fp.num 0) 0 (by decide) (by decide)
    (fun j _ => by simp [mC8w, Fp.isNaN])

/-- C9 amended: the per-lane validity counters are flushed to the usize
total every 2^b/4 four-wide groups for counter width b < 64 and every
(2^64 - 1)/4 groups for b = 64; for every row of fewer than 2^32 elements
(with counters at least 32 bits wide, the widths the element types use),
no per-lane counter, pairwise counter sum or combined counter sum wraps,
and the final total equals the true count of non-NaN entries. -/
theorem c9_flush_cadence_and_count (bits : ℕ) (row : List Fp)
    (hbits : 32 ≤ bits) (hrow : row.length < 2 ^ 32) :
    chunkSize 32 = 2 ^ 32 / 4
    ∧ chunkSize 64 = (2 ^ 64 - 1) / 4
    ∧ ((kMeanIgnoreReal bits).runRow row).total
        = (row.filter (fun x => x.isNotNaN)).length := by
  refine ⟨by decide, by decide, ?_⟩
  have hB : ∀ v : Option Fp, (kMeanIgnoreReal bits).inc v ≤ 1 := by
    intro v
    simp only [kMeanIgnoreReal]
    split <;> omega
  have ht := runRow_total (kMeanIgnoreReal bits) hB hbits row hrow
  rw [ht]
  have hnone : (kMeanIgnoreReal bits).inc none = 0 := rfl
  rw [hnone]
  have hfun : (fun x : Fp => (kMeanIgnoreReal bits).inc (some x))
      = (fun x : Fp => if x.isNotNaN then 1 else 0) := by
    funext x
    rfl
  rw [hfun, sum_map_ite_filter]
  simp

/-- Witness for C9 on the concrete row [1, NaN, 2] with 32-bit counters:
the flushed total equals the true valid count 2. -/
theorem c9_flush_cadence_and_count_witness :
    (32 : ℕ) ≤ 32
    ∧ ([Fp.num 1, Fp.nan, Fp.num 2] : List Fp).length < 2 ^ 32
    ∧ ((kMeanIgnoreReal 32).runRow [Fp.num 1, Fp.nan, Fp.num 2]).total
        = (([Fp.num 1, Fp.nan, Fp.num 2] : List Fp).filter
            (fun x => x.isNotNaN)).length :=
  ⟨by decide, by decide,
    (c9_flush_cadence_and_count 32 [Fp.num 1, Fp.nan, Fp.num 2]
      (by decide) (by decide)).2.2⟩

/-- C10 amended: from_usize is the floating-point sum of the converted low
32 bits and the converted high part; the result is exactly n for every
n below 2^32 in the idealized model and in the f64 instantiation (53-bit
significand), but for the f32 real type exactness only holds for n below
2^24: counts and dimension divisors below 2^32 are exactly representable
only when the real type is f64. -/
theorem c10_from_usize_exactness (n : ℕ) :
    from_usize n
      = (Fp.num ((n % 2 ^ 32 : ℕ) : ℚ)).add
          (Fp.num ((n : ℚ) - ((n % 2 ^ 32 : ℕ) : ℚ)))
    ∧ (n < 2 ^ 32 → from_usize n = Fp.num n)
    ∧ (n < 2 ^ 32 → fromUsizeF64 n = Fp.num n)
    ∧ (n < 2 ^ 24 → fromUsizeF32 n = Fp.num n) := by
  refine ⟨rfl, fun _ => from_usize_eq_num n, ?_, ?_⟩
  · intro h
    have hlow : n % 2 ^ 32 = n := Nat.mod_eq_of_lt h
    unfold fromUsizeF64
    rw [hlow, Nat.sub_self,
      rnd_eq_of_lt (show n < 2 ^ 53 from lt_of_lt_of_le h (by norm_num)) (by norm_num),
      rnd_eq_of_lt (show (0 : ℕ) < 2 ^ 53 by norm_num) (by norm_num),
      Nat.add_zero,
      rnd_eq_of_lt (show n < 2 ^ 53 from lt_of_lt_of_le h (by norm_num)) (by norm_num)]
  · intro h
    have hlow : n % 2 ^ 32 = n := Nat.mod_eq_of_lt (lt_of_lt_of_le h (by norm_num))
    unfold fromUsizeF32
    rw [hlow, Nat.sub_self,
      rnd_eq_of_lt (show n < 2 ^ 24 from h) (by norm_num),
      rnd_eq_of_lt (show (0 : ℕ) < 2 ^ 24 by norm_num) (by norm_num),
      Nat.add_zero,
      rnd_eq_of_lt (show n < 2 ^ 24 from h) (by norm_num)]

/-- Witness for C10 at n = 7: exact in the idealized model and in both
floating-point instantiations. -/
theorem c10_from_usize_exactness_witness :
    ((7 : ℕ) < 2 ^ 32 ∧ from_usize 7 = Fp.num 7 ∧ fromUsizeF64 7 = Fp.num 7)
    ∧ ((7 : ℕ) < 2 ^ 24 ∧ fromUsizeF32 7 = Fp.num 7) :=
  ⟨⟨by decide, (c10_from_usize_exactness 7).2.1 (by decide),
      (c10_from_usize_exactness 7).2.2.1 (by decide)⟩,
    ⟨by decide, (c10_from_usize_exactness 7).2.2.2 (by decide)⟩⟩
